import Mathlib

/-!
Verification of the `kaboom_rs` ray-marched explosion renderer.

The Rust sources (`src/geometry.rs`, `src/main.rs`) are embedded shallowly
over the real numbers: every `f32` value becomes an `ℝ`, `sin`/`sqrt`/`tan`
and `powf` become their `Real` counterparts, and the one mutating method
(`Vec3f::normalize`, receiver `&mut self`) becomes an explicit state
transformer returning the updated operand together with the returned value.
-/

namespace Kaboom

noncomputable section

/-- The 3-component vector of `geometry.rs` (`struct Vec3f`). -/
structure Vec3 where
  x : ℝ
  y : ℝ
  z : ℝ

/-- `impl Add for Vec3f`: componentwise addition. -/
def Vec3.add (a b : Vec3) : Vec3 :=
  ⟨a.x + b.x, a.y + b.y, a.z + b.z⟩

/-- `impl Sub for Vec3f`: componentwise subtraction. -/
def Vec3.sub (a b : Vec3) : Vec3 :=
  ⟨a.x - b.x, a.y - b.y, a.z - b.z⟩

/-- `impl Mul for Vec3f`: `Vec3f * Vec3f` is the dot product (output `f32`). -/
def Vec3.dot (a b : Vec3) : ℝ :=
  a.x * b.x + a.y * b.y + a.z * b.z

/-- `impl Mul<f32> for Vec3f`: componentwise scaling. -/
def Vec3.smul (a : Vec3) (k : ℝ) : Vec3 :=
  ⟨a.x * k, a.y * k, a.z * k⟩

/-- `impl Neg for Vec3f`: componentwise negation. -/
def Vec3.neg (a : Vec3) : Vec3 :=
  ⟨-a.x, -a.y, -a.z⟩

/-- `Vec3f::norm`: `(x*x + y*y + z*z).sqrt()`. -/
def Vec3.norm (a : Vec3) : ℝ :=
  Real.sqrt (a.x * a.x + a.y * a.y + a.z * a.z)

/-- `Vec3f::normalize` has receiver `&mut self`: it executes
`*self = (*self) * (1.0 / self.norm()); *self`, i.e. it overwrites the
operand and returns the new value.  Modelled as a state transformer:
the first component is the updated operand, the second the returned value. -/
def Vec3.normalize (a : Vec3) : Vec3 × Vec3 :=
  (Vec3.smul a (1 / a.norm), Vec3.smul a (1 / a.norm))

/-- `SPHERE_RADIUS` from `main.rs`. -/
def SPHERE_RADIUS : ℝ := 1.5

/-- `NOISE_AMPLITUDE` from `main.rs`. -/
def NOISE_AMPLITUDE : ℝ := 1.0

/-- Generic `lerp` of `main.rs` instantiated at `f32`:
`v0 + (v1 - v0) * t.min(1.0).max(0.0)`. -/
def lerp (v0 v1 t : ℝ) : ℝ :=
  v0 + (v1 - v0) * max (min t 1) 0

/-- Generic `lerp` of `main.rs` instantiated at `Vec3f`. -/
def lerpV (v0 v1 : Vec3) (t : ℝ) : Vec3 :=
  Vec3.add v0 (Vec3.smul (Vec3.sub v1 v0) (max (min t 1) 0))

/-- `hash`: `let x = n.sin() * 43758.5453; x - x.floor()`. -/
def hash (n : ℝ) : ℝ :=
  Real.sin n * 43758.5453 - ↑⌊Real.sin n * 43758.5453⌋

/-- `noise` from `main.rs`.  Note the operator resolution on the line
`f = f * (f * (vec3!(3.0,3.0,3.0) - f * 2.0))`: the inner `f * (...)` is
`Mul for Vec3f` (a dot product yielding `f32`), so the whole update scales
`f` by that scalar; it is not a componentwise smoothstep. -/
def noise (x : Vec3) : ℝ :=
  let p : Vec3 := ⟨↑⌊x.x⌋, ↑⌊x.y⌋, ↑⌊x.z⌋⟩
  let f0 : Vec3 := ⟨x.x - p.x, x.y - p.y, x.z - p.z⟩
  let f : Vec3 := Vec3.smul f0 (Vec3.dot f0 (Vec3.sub ⟨3, 3, 3⟩ (Vec3.smul f0 2)))
  let n : ℝ := Vec3.dot p ⟨1, 57, 113⟩
  lerp
    (lerp (lerp (hash (n + 0)) (hash (n + 1)) f.x)
          (lerp (hash (n + 57)) (hash (n + 58)) f.x) f.y)
    (lerp (lerp (hash (n + 113)) (hash (n + 114)) f.x)
          (lerp (hash (n + 170)) (hash (n + 171)) f.x) f.y)
    f.z

/-- `rotate` from `main.rs`: each component is a row-vector dot `v`. -/
def rotate (v : Vec3) : Vec3 :=
  ⟨Vec3.dot ⟨0, 0.8, 0.6⟩ v,
   Vec3.dot ⟨-0.8, 0.36, -0.48⟩ v,
   Vec3.dot ⟨-0.6, -0.48, 0.64⟩ v⟩

/-- `fractal_brownian_motion` from `main.rs`: in the source `f` starts at
`0.0` and accumulates the four weighted octaves while `p` is rescaled
between them; the sequential rescalings of `p` are named `p0..p3` here and
the accumulated sum is written in one expression. -/
def fractal_brownian_motion (v : Vec3) : ℝ :=
  let p0 := rotate v
  let p1 := Vec3.smul p0 2.32
  let p2 := Vec3.smul p1 3.03
  let p3 := Vec3.smul p2 2.61
  (0.50 * noise p0 + 0.25 * noise p1 + 0.125 * noise p2 + 0.0625 * noise p3) / 0.9375

/-- The `yellow` stop colour of `palette_fire`. -/
def yellow : Vec3 := ⟨66 / 255, 122 / 255, 169 / 255⟩

/-- The `orange` stop colour of `palette_fire`. -/
def orange : Vec3 := ⟨100 / 255, 143 / 255, 185 / 255⟩

/-- The `red` stop colour of `palette_fire`. -/
def red : Vec3 := ⟨131 / 255, 157 / 255, 190 / 255⟩

/-- The `darkgray` stop colour of `palette_fire`. -/
def darkgray : Vec3 := ⟨209 / 255, 209 / 255, 211 / 255⟩

/-- The `gray` stop colour of `palette_fire`. -/
def gray : Vec3 := ⟨248 / 255, 243 / 255, 239 / 255⟩

/-- `palette_fire` from `main.rs`: clamp `d` via `d.min(1.0).max(0.0)`,
then four linear gradient segments. -/
def palette_fire (d : ℝ) : Vec3 :=
  let x := max (min d 1) 0
  if x < 0.25 then lerpV gray darkgray (x * 4)
  else if x < 0.5 then lerpV darkgray red (x * 4 - 1)
  else if x < 0.75 then lerpV red orange (x * 4 - 2)
  else lerpV orange yellow (x * 4 - 3)

/-- `signed_distance` from `main.rs`:
`displacement = -fbm(p * 3.4) * NOISE_AMPLITUDE; p.norm() - (SPHERE_RADIUS + displacement)`. -/
def signed_distance (p : Vec3) : ℝ :=
  Vec3.norm p - (SPHERE_RADIUS + -fractal_brownian_motion (Vec3.smul p 3.4) * NOISE_AMPLITUDE)

/-- One iteration of the `sphere_trace` march:
`pos = pos + dir * (d * 0.1).max(0.01)` with `d = signed_distance pos`. -/
def step (dir pos : Vec3) : Vec3 :=
  Vec3.add pos (Vec3.smul dir (max (signed_distance pos * 0.1) 0.01))

/-- The `for _ in 0..128` loop body of `sphere_trace`, with the remaining
iteration count as fuel: test `signed_distance pos < 0.0`, return `Some pos`
on success, otherwise advance and continue; `None` when the budget runs out. -/
def marchLoop (dir : Vec3) : ℕ → Vec3 → Option Vec3
  | 0, _ => none
  | n + 1, pos =>
      if signed_distance pos < 0 then some pos else marchLoop dir n (step dir pos)

/-- `sphere_trace` from `main.rs`, early conservative reject included:
`orig * orig - (orig * dir).powf(2.0) > SPHERE_RADIUS.powf(2.0)` returns
`None` at once, otherwise the 128-step march runs. -/
def sphere_trace (orig dir : Vec3) : Option Vec3 :=
  if Vec3.dot orig orig - Vec3.dot orig dir ^ 2 > SPHERE_RADIUS ^ 2 then none
  else marchLoop dir 128 orig

/-- The variant of `sphere_trace` without the early conservative reject
(spec §4.5 calls the reject "an optimization, not required for correctness"). -/
def sphere_trace_noreject (orig dir : Vec3) : Option Vec3 :=
  marchLoop dir 128 orig

/-- The position reached after `k` march steps from `orig` along `dir`. -/
def iterPos (dir orig : Vec3) : ℕ → Vec3
  | 0 => orig
  | k + 1 => step dir (iterPos dir orig k)

/-- `distance_field_normal` from `main.rs`: forward differences with
`eps = 0.1`, then `normalize` (the returned value of the mutating call). -/
def distance_field_normal (pos : Vec3) : Vec3 :=
  let eps : ℝ := 0.1
  let d := signed_distance pos
  let nx := signed_distance (Vec3.add pos ⟨eps, 0, 0⟩) - d
  let ny := signed_distance (Vec3.add pos ⟨0, eps, 0⟩) - d
  let nz := signed_distance (Vec3.add pos ⟨0, 0, eps⟩) - d
  (Vec3.normalize ⟨nx, ny, nz⟩).2

/-- The per-pixel body of the rendering loop of `main`, as a function of the
camera origin and the (already normalized) ray direction: trace, then either
shade the hit or write the fixed background colour. -/
def pixelColor (orig dir : Vec3) : Vec3 :=
  match sphere_trace orig dir with
  | some hit =>
      let noise_level := (SPHERE_RADIUS - Vec3.norm hit) / NOISE_AMPLITUDE
      let light_dir := (Vec3.normalize (Vec3.sub ⟨10, 10, 10⟩ hit)).2
      let light_intensity := max (Vec3.dot light_dir (distance_field_normal hit)) 0.4
      Vec3.smul (palette_fire ((-0.2 + noise_level) * 2.0)) light_intensity
  | none => ⟨(0.2 : ℝ) ^ (2.2 : ℝ), (0.7 : ℝ) ^ (2.2 : ℝ), (0.8 : ℝ) ^ (2.2 : ℝ)⟩

/-- `width` from `main`. -/
def width : ℕ := 640 * 2

/-- `height` from `main`. -/
def height : ℕ := 480 * 2

/-- `fov` from `main`. -/
def fov : ℝ := Real.pi / 3

/-- The camera ray direction of pixel `(i, j)` in `main`, before tracing:
`vec3!(dir_x, dir_y, dir_z).normalize()` (value returned by the call). -/
def rayDir (i j : ℕ) : Vec3 :=
  (Vec3.normalize ⟨(i : ℝ) + 0.5 - (width : ℝ) / 2,
                   -((j : ℝ) + 0.5) + (height : ℝ) / 2,
                   -(height : ℝ) / (2 * Real.tan (fov / 2))⟩).2

/-- The framebuffer value of pixel `(i, j)` as computed by `main`'s loop:
the camera sits at `(0,0,3)`. -/
def renderPixel (i j : ℕ) : Vec3 :=
  pixelColor ⟨0, 0, 3⟩ (rayDir i j)

/-- Truncation toward zero, the rounding of Rust's `as i32` cast on the
values that arise here (the cast also saturates at the `i32` bounds, which
cannot change the byte after the `.min(255).max(0)` clamp). -/
def truncToInt (r : ℝ) : ℤ :=
  if 0 ≤ r then ⌊r⌋ else -⌊-r⌋

/-- The per-channel encode of `main`'s output loop, as implemented:
`p = channel.powf(1.0/2.2) * 255.0`, then `(p as i32).min(255).max(0)`. -/
def encodeImpl (c : ℝ) : ℤ :=
  max (min (truncToInt (c ^ ((1 : ℝ) / 2.2) * 255)) 255) 0

/-- The per-channel encode as the spec words it (§6): gamma encode, scale by
255, clamp to `[0, 255]`, then truncate to an integer. -/
def encodeSpec (c : ℝ) : ℤ :=
  truncToInt (min (max (c ^ ((1 : ℝ) / 2.2) * 255) 0) 255)

/-- The spec wording of the per-hit shade (§4.7): `noise_level`, `light_dir`,
`intensity`, `palette((noise_level - 0.2) * 2.0) * intensity`. -/
def shadeHitSpec (hit : Vec3) : Vec3 :=
  Vec3.smul (palette_fire (((SPHERE_RADIUS - Vec3.norm hit) / NOISE_AMPLITUDE - 0.2) * 2.0))
    (max (Vec3.dot (Vec3.normalize (Vec3.sub ⟨10, 10, 10⟩ hit)).2 (distance_field_normal hit)) 0.4)

/-- The fixed background colour of the spec (§4.7): `(0.2, 0.7, 0.8)` with
each channel pre-raised to exponent `2.2`. -/
def backgroundSpec : Vec3 :=
  ⟨(0.2 : ℝ) ^ (2.2 : ℝ), (0.7 : ℝ) ^ (2.2 : ℝ), (0.8 : ℝ) ^ (2.2 : ℝ)⟩

/-! ## Range lemmas for the noise pipeline -/

lemma hash_mem (n : ℝ) : 0 ≤ hash n ∧ hash n < 1 := by
  have h : hash n = Int.fract (Real.sin n * 43758.5453) := rfl
  rw [h]
  exact ⟨Int.fract_nonneg _, Int.fract_lt_one _⟩

lemma lerp_mem (a b t : ℝ) (ha0 : 0 ≤ a) (ha1 : a < 1) (hb0 : 0 ≤ b) (hb1 : b < 1) :
    0 ≤ lerp a b t ∧ lerp a b t < 1 := by
  have hs0 : 0 ≤ max (min t 1) 0 := le_max_right _ _
  have hs1 : max (min t 1) 0 ≤ 1 := max_le (min_le_right t 1) zero_le_one
  unfold lerp
  constructor
  · nlinarith [mul_nonneg ha0 (sub_nonneg.mpr hs1), mul_nonneg hb0 hs0]
  · rcases lt_or_eq_of_le hs1 with h | h
    · nlinarith [mul_pos (sub_pos.mpr ha1) (sub_pos.mpr h),
        mul_nonneg (sub_nonneg.mpr hb1.le) hs0]
    · rw [h]; linarith

lemma noise_mem (v : Vec3) : 0 ≤ noise v ∧ noise v < 1 := by
  have L : ∀ a b t : ℝ, (0 ≤ a ∧ a < 1) → (0 ≤ b ∧ b < 1) →
      0 ≤ lerp a b t ∧ lerp a b t < 1 :=
    fun a b t ha hb => lerp_mem a b t ha.1 ha.2 hb.1 hb.2
  simp only [noise]
  exact L _ _ _
    (L _ _ _ (L _ _ _ (hash_mem _) (hash_mem _)) (L _ _ _ (hash_mem _) (hash_mem _)))
    (L _ _ _ (L _ _ _ (hash_mem _) (hash_mem _)) (L _ _ _ (hash_mem _) (hash_mem _)))

lemma fbm_mem (v : Vec3) :
    0 ≤ fractal_brownian_motion v ∧ fractal_brownian_motion v < 1 := by
  simp only [fractal_brownian_motion]
  obtain ⟨a0, a1⟩ := noise_mem (rotate v)
  obtain ⟨b0, b1⟩ := noise_mem (Vec3.smul (rotate v) 2.32)
  obtain ⟨c0, c1⟩ := noise_mem (Vec3.smul (Vec3.smul (rotate v) 2.32) 3.03)
  obtain ⟨d0, d1⟩ := noise_mem (Vec3.smul (Vec3.smul (Vec3.smul (rotate v) 2.32) 3.03) 2.61)
  constructor
  · apply div_nonneg _ (by norm_num)
    linarith
  · rw [div_lt_one (by norm_num)]
    linarith

/-! ## The signed-distance field -/

lemma signed_distance_eq (p : Vec3) :
    signed_distance p =
      Vec3.norm p -
        (SPHERE_RADIUS - fractal_brownian_motion (Vec3.smul p 3.4) * NOISE_AMPLITUDE) := by
  unfold signed_distance
  ring

lemma sd_pos_of_norm_gt {p : Vec3} (h : SPHERE_RADIUS < Vec3.norm p) :
    0 < signed_distance p := by
  have hf := (fbm_mem (Vec3.smul p 3.4)).1
  unfold signed_distance NOISE_AMPLITUDE
  unfold NOISE_AMPLITUDE at hf
  nlinarith

lemma dot_self_nonneg (a : Vec3) : 0 ≤ Vec3.dot a a := by
  unfold Vec3.dot
  nlinarith [sq_nonneg a.x, sq_nonneg a.y, sq_nonneg a.z]

lemma norm_eq_sqrt_dot (a : Vec3) : Vec3.norm a = Real.sqrt (Vec3.dot a a) := rfl

lemma norm_gt_of_dot_gt {a : Vec3} (h : SPHERE_RADIUS ^ 2 < Vec3.dot a a) :
    SPHERE_RADIUS < Vec3.norm a := by
  rw [norm_eq_sqrt_dot]
  exact (Real.lt_sqrt (by norm_num [SPHERE_RADIUS])).mpr h

lemma dot_dir_one {dir : Vec3} (h : Vec3.norm dir = 1) : Vec3.dot dir dir = 1 := by
  have hs : Real.sqrt (Vec3.dot dir dir) = 1 := h
  exact Real.sqrt_eq_one.mp hs

/-! ## Geometry of the march positions -/

lemma add_smul_smul (o d : Vec3) (t s : ℝ) :
    Vec3.add (Vec3.add o (Vec3.smul d t)) (Vec3.smul d s) =
      Vec3.add o (Vec3.smul d (t + s)) := by
  unfold Vec3.add Vec3.smul
  dsimp only
  simp only [Vec3.mk.injEq]
  refine ⟨by ring, by ring, by ring⟩

lemma iterPos_line (dir orig : Vec3) (k : ℕ) :
    ∃ t : ℝ, iterPos dir orig k = Vec3.add orig (Vec3.smul dir t) := by
  induction k with
  | zero =>
      refine ⟨0, ?_⟩
      obtain ⟨ox, oy, oz⟩ := orig
      simp [iterPos, Vec3.add, Vec3.smul]
  | succ k ih =>
      obtain ⟨t, ht⟩ := ih
      refine ⟨t + max (signed_distance (Vec3.add orig (Vec3.smul dir t)) * 0.1) 0.01, ?_⟩
      simp only [iterPos, ht, step]
      exact add_smul_smul orig dir t _

lemma dot_line_ge (orig dir : Vec3) (hd : Vec3.dot dir dir = 1) (t : ℝ) :
    Vec3.dot orig orig - Vec3.dot orig dir ^ 2 ≤
      Vec3.dot (Vec3.add orig (Vec3.smul dir t)) (Vec3.add orig (Vec3.smul dir t)) := by
  unfold Vec3.dot at hd
  unfold Vec3.dot Vec3.add Vec3.smul
  dsimp only
  nlinarith [sq_nonneg (t + (orig.x * dir.x + orig.y * dir.y + orig.z * dir.z)),
    sq_nonneg t, hd]

/-! ## Characterization of the march loop -/

lemma iterPos_shift (dir pos : Vec3) (k : ℕ) :
    iterPos dir (step dir pos) k = iterPos dir pos (k + 1) := by
  induction k with
  | zero => simp [iterPos]
  | succ k ih => simp only [iterPos, ih]

lemma marchLoop_none_iff (dir : Vec3) :
    ∀ (n : ℕ) (pos : Vec3),
      (marchLoop dir n pos = none ↔
        ∀ k < n, 0 ≤ signed_distance (iterPos dir pos k)) := by
  intro n
  induction n with
  | zero => intro pos; simp [marchLoop]
  | succ n ih =>
      intro pos
      by_cases hd : signed_distance pos < 0
      · simp only [marchLoop, if_pos hd]
        constructor
        · intro h; exact absurd h (Option.some_ne_none pos)
        · intro h
          exfalso
          have h0 := h 0 (Nat.succ_pos n)
          simp only [iterPos] at h0
          exact absurd h0 (not_le.mpr hd)
      · simp only [marchLoop, if_neg hd]
        rw [ih (step dir pos)]
        constructor
        · intro h k hk
          cases k with
          | zero => simpa [iterPos] using not_lt.mp hd
          | succ k =>
              have hkk := h k (by omega)
              rwa [iterPos_shift] at hkk
        · intro h k hk
          have hkk := h (k + 1) (by omega)
          rwa [← iterPos_shift] at hkk

lemma marchLoop_some_iff (dir : Vec3) :
    ∀ (n : ℕ) (pos hit : Vec3),
      (marchLoop dir n pos = some hit ↔
        ∃ k < n, signed_distance (iterPos dir pos k) < 0 ∧
          (∀ j < k, 0 ≤ signed_distance (iterPos dir pos j)) ∧
          hit = iterPos dir pos k) := by
  intro n
  induction n with
  | zero => intro pos hit; simp [marchLoop]
  | succ n ih =>
      intro pos hit
      by_cases hd : signed_distance pos < 0
      · simp only [marchLoop, if_pos hd, Option.some.injEq]
        constructor
        · rintro rfl
          exact ⟨0, Nat.succ_pos n, by simpa [iterPos] using hd,
            fun j hj => absurd hj (Nat.not_lt_zero j), by simp [iterPos]⟩
        · rintro ⟨k, hk, hneg, hall, rfl⟩
          cases k with
          | zero => simp [iterPos]
          | succ k =>
              exfalso
              have h0 := hall 0 (Nat.succ_pos k)
              simp only [iterPos] at h0
              exact absurd h0 (not_le.mpr hd)
      · simp only [marchLoop, if_neg hd]
        rw [ih (step dir pos) hit]
        have h0 : 0 ≤ signed_distance pos := not_lt.mp hd
        constructor
        · rintro ⟨k, hk, hneg, hall, rfl⟩
          refine ⟨k + 1, by omega, ?_, ?_, ?_⟩
          · rwa [iterPos_shift] at hneg
          · intro j hj
            cases j with
            | zero => simpa [iterPos] using h0
            | succ j =>
                have hjj := hall j (by omega)
                rwa [iterPos_shift] at hjj
          · exact iterPos_shift dir pos k
        · rintro ⟨k, hk, hneg, hall, rfl⟩
          cases k with
          | zero =>
              exfalso
              simp only [iterPos] at hneg
              exact absurd hneg (not_lt.mpr h0)
          | succ k =>
              refine ⟨k, by omega, ?_, ?_, ?_⟩
              · rwa [← iterPos_shift] at hneg
              · intro j hj
                have hjj := hall (j + 1) (by omega)
                rwa [← iterPos_shift] at hjj
              · exact (iterPos_shift dir pos k).symm

lemma marchLoop_none_of_reject {orig dir : Vec3} (hdir : Vec3.dot dir dir = 1)
    (hrej : Vec3.dot orig orig - Vec3.dot orig dir ^ 2 > SPHERE_RADIUS ^ 2) (n : ℕ) :
    marchLoop dir n orig = none := by
  rw [marchLoop_none_iff]
  intro k hk
  obtain ⟨t, ht⟩ := iterPos_line dir orig k
  have hge := dot_line_ge orig dir hdir t
  have hdot : SPHERE_RADIUS ^ 2 < Vec3.dot (iterPos dir orig k) (iterPos dir orig k) := by
    rw [ht]; linarith
  exact (sd_pos_of_norm_gt (norm_gt_of_dot_gt hdot)).le

/-! ## Auxiliary facts for the witnesses and palette claims -/

lemma norm_three : Vec3.norm ⟨3, 0, 0⟩ = 3 := by
  unfold Vec3.norm
  rw [show ((3 : ℝ) * 3 + 0 * 0 + 0 * 0) = 3 ^ 2 by norm_num]
  exact Real.sqrt_sq (by norm_num)

lemma norm_unit_x : Vec3.norm ⟨1, 0, 0⟩ = 1 := by
  unfold Vec3.norm
  rw [show ((1 : ℝ) * 1 + 0 * 0 + 0 * 0) = 1 by norm_num]
  exact Real.sqrt_one

lemma clamp_comm (t : ℝ) : max (min t 1) 0 = min (max t 0) 1 := by
  simp only [min_def, max_def]
  split_ifs <;> linarith

lemma clamp_neg_abs (t : ℝ) : max (min (-|t|) 1) 0 = 0 := by
  have h : -|t| ≤ 0 := neg_nonpos.mpr (abs_nonneg t)
  rw [min_eq_left (h.trans zero_le_one), max_eq_right h]

lemma clamp_one_add_abs (t : ℝ) : max (min (1 + |t|) 1) 0 = 1 := by
  have h : (1 : ℝ) ≤ 1 + |t| := by nlinarith [abs_nonneg t]
  rw [min_eq_right h, max_eq_left zero_le_one]

lemma floor_255 : ⌊(255 : ℝ)⌋ = 255 := by norm_num

lemma floor_min_255 (p : ℝ) : ⌊min p 255⌋ = min ⌊p⌋ 255 := by
  rcases le_total p 255 with h | h
  · rw [min_eq_left h,
      min_eq_left ((Int.floor_le_floor h).trans (le_of_eq floor_255))]
  · rw [min_eq_right h, floor_255,
      min_eq_right (le_of_eq floor_255.symm |>.trans (Int.floor_le_floor h))]

/-! ## The claims -/

/-- C1: for every origin and direction that pass the bounding check,
`sphere_trace` marches from `pos = origin` for up to 128 iterations, where
the iteration positions advance by `direction * max(d * 0.1, 0.01)`
(see `iterPos`/`step`): it returns `some` of the first in-surface sample
(the first position with `signed_distance < 0`, all earlier samples being
out of surface), and returns `none` exactly when all 128 samples have
non-negative signed distance. -/
theorem C1_sphere_trace_march (orig dir : Vec3)
    (h : ¬(Vec3.dot orig orig - Vec3.dot orig dir ^ 2 > SPHERE_RADIUS ^ 2)) :
    (∀ hit, sphere_trace orig dir = some hit ↔
        ∃ k < 128, signed_distance (iterPos dir orig k) < 0 ∧
          (∀ j < k, 0 ≤ signed_distance (iterPos dir orig j)) ∧
          hit = iterPos dir orig k) ∧
    (sphere_trace orig dir = none ↔
      ∀ k < 128, 0 ≤ signed_distance (iterPos dir orig k)) := by
  unfold sphere_trace
  rw [if_neg h]
  exact ⟨fun hit => marchLoop_some_iff dir 128 orig hit, marchLoop_none_iff dir 128 orig⟩

/-- Witness for C1 at origin `(0,0,3)`, direction `(0,0,-1)` (which passes
the bounding check: `9 - (-3)^2 = 0` is not greater than `1.5^2`). -/
theorem C1_sphere_trace_march_witness :
    ¬(Vec3.dot ⟨0, 0, 3⟩ ⟨0, 0, 3⟩ - Vec3.dot ⟨0, 0, 3⟩ ⟨0, 0, -1⟩ ^ 2 > SPHERE_RADIUS ^ 2) ∧
    (sphere_trace ⟨0, 0, 3⟩ ⟨0, 0, -1⟩ = none ↔
      ∀ k < 128, 0 ≤ signed_distance (iterPos ⟨0, 0, -1⟩ ⟨0, 0, 3⟩ k)) := by
  have h : ¬(Vec3.dot (⟨0, 0, 3⟩ : Vec3) ⟨0, 0, 3⟩ -
      Vec3.dot (⟨0, 0, 3⟩ : Vec3) ⟨0, 0, -1⟩ ^ 2 > SPHERE_RADIUS ^ 2) := by
    norm_num [Vec3.dot, SPHERE_RADIUS]
  exact ⟨h, (C1_sphere_trace_march ⟨0, 0, 3⟩ ⟨0, 0, -1⟩ h).2⟩

/-- C2: the conservative bounding-sphere reject never changes the outcome.
For a unit-length direction, whenever the reject condition
`|origin|^2 - (origin . direction)^2 > SPHERE_RADIUS^2` holds, the
128-step march by itself also returns no-hit, and `sphere_trace` with the
early reject agrees with the variant without it on every such input. -/
theorem C2_reject_is_conservative (orig dir : Vec3) (hdir : Vec3.norm dir = 1) :
    (Vec3.dot orig orig - Vec3.dot orig dir ^ 2 > SPHERE_RADIUS ^ 2 →
      marchLoop dir 128 orig = none) ∧
    sphere_trace orig dir = sphere_trace_noreject orig dir := by
  have hd1 : Vec3.dot dir dir = 1 := dot_dir_one hdir
  have key : Vec3.dot orig orig - Vec3.dot orig dir ^ 2 > SPHERE_RADIUS ^ 2 →
      marchLoop dir 128 orig = none :=
    fun hrej => marchLoop_none_of_reject hd1 hrej 128
  refine ⟨key, ?_⟩
  unfold sphere_trace sphere_trace_noreject
  by_cases h : Vec3.dot orig orig - Vec3.dot orig dir ^ 2 > SPHERE_RADIUS ^ 2
  · rw [if_pos h, key h]
  · rw [if_neg h]

/-- Witness for C2 at origin `(0,0,3)` and unit direction `(1,0,0)`,
for which the reject condition `9 - 0 > 2.25` holds. -/
theorem C2_reject_is_conservative_witness :
    Vec3.norm ⟨1, 0, 0⟩ = 1 ∧
    Vec3.dot ⟨0, 0, 3⟩ ⟨0, 0, 3⟩ - Vec3.dot ⟨0, 0, 3⟩ ⟨1, 0, 0⟩ ^ 2 > SPHERE_RADIUS ^ 2 ∧
    marchLoop ⟨1, 0, 0⟩ 128 ⟨0, 0, 3⟩ = none ∧
    sphere_trace ⟨0, 0, 3⟩ ⟨1, 0, 0⟩ = sphere_trace_noreject ⟨0, 0, 3⟩ ⟨1, 0, 0⟩ := by
  have hdir : Vec3.norm ⟨1, 0, 0⟩ = 1 := norm_unit_x
  have hrej : Vec3.dot (⟨0, 0, 3⟩ : Vec3) ⟨0, 0, 3⟩ -
      Vec3.dot (⟨0, 0, 3⟩ : Vec3) ⟨1, 0, 0⟩ ^ 2 > SPHERE_RADIUS ^ 2 := by
    norm_num [Vec3.dot, SPHERE_RADIUS]
  exact ⟨hdir, hrej, (C2_reject_is_conservative ⟨0, 0, 3⟩ ⟨1, 0, 0⟩ hdir).1 hrej,
    (C2_reject_is_conservative ⟨0, 0, 3⟩ ⟨1, 0, 0⟩ hdir).2⟩

/-- C3: `signed_distance p` equals
`|p| - (SPHERE_RADIUS - fbm(p * 3.4) * NOISE_AMPLITUDE)`, the displacement
`fbm(p * 3.4) * NOISE_AMPLITUDE` is non-negative, and therefore the signed
distance is positive at every point with `|p| > SPHERE_RADIUS` (the whole
perturbed surface fits inside the bounding sphere). -/
theorem C3_signed_distance_inside (p : Vec3) (h : SPHERE_RADIUS < Vec3.norm p) :
    signed_distance p =
      Vec3.norm p -
        (SPHERE_RADIUS - fractal_brownian_motion (Vec3.smul p 3.4) * NOISE_AMPLITUDE) ∧
    0 ≤ fractal_brownian_motion (Vec3.smul p 3.4) * NOISE_AMPLITUDE ∧
    0 < signed_distance p :=
  ⟨signed_distance_eq p,
   mul_nonneg (fbm_mem (Vec3.smul p 3.4)).1 (by norm_num [NOISE_AMPLITUDE]),
   sd_pos_of_norm_gt h⟩

/-- Witness for C3 at `p = (3,0,0)`, whose norm `3` exceeds `SPHERE_RADIUS`. -/
theorem C3_signed_distance_inside_witness :
    SPHERE_RADIUS < Vec3.norm ⟨3, 0, 0⟩ ∧
    (signed_distance ⟨3, 0, 0⟩ =
      Vec3.norm ⟨3, 0, 0⟩ -
        (SPHERE_RADIUS -
          fractal_brownian_motion (Vec3.smul ⟨3, 0, 0⟩ 3.4) * NOISE_AMPLITUDE) ∧
    0 ≤ fractal_brownian_motion (Vec3.smul ⟨3, 0, 0⟩ 3.4) * NOISE_AMPLITUDE ∧
    0 < signed_distance ⟨3, 0, 0⟩) := by
  have h : SPHERE_RADIUS < Vec3.norm ⟨3, 0, 0⟩ := by
    rw [norm_three]; norm_num [SPHERE_RADIUS]
  exact ⟨h, C3_signed_distance_inside ⟨3, 0, 0⟩ h⟩

/-- C4: `noise` always produces a value in the half-open interval `[0, 1)`:
the hash is a fractional part and the interpolation (whose parameter is
clamped) is a convex combination. -/
theorem C4_noise_range (p : Vec3) : 0 ≤ noise p ∧ noise p < 1 :=
  noise_mem p

/-- C6: `palette_fire 0` is the gray stop exactly, `palette_fire 1` is the
yellow stop exactly, and at the interior breakpoints `0.25`, `0.5`, `0.75`
the two adjacent segment formulas evaluate to the same colour, so the
palette is continuous across every breakpoint. -/
theorem C6_palette_breakpoints :
    palette_fire 0 = gray ∧ palette_fire 1 = yellow ∧
    lerpV gray darkgray (0.25 * 4) = lerpV darkgray red (0.25 * 4 - 1) ∧
    lerpV darkgray red (0.5 * 4 - 1) = lerpV red orange (0.5 * 4 - 2) ∧
    lerpV red orange (0.75 * 4 - 2) = lerpV orange yellow (0.75 * 4 - 3) := by
  refine ⟨?_, ?_, ?_, ?_, ?_⟩
  · simp only [palette_fire]
    norm_num [lerpV, Vec3.add, Vec3.sub, Vec3.smul, gray, darkgray,
      min_def, max_def]
  · simp only [palette_fire]
    norm_num [lerpV, Vec3.add, Vec3.sub, Vec3.smul, orange, yellow,
      min_def, max_def]
  · norm_num [lerpV, Vec3.add, Vec3.sub, Vec3.smul, gray, darkgray, red,
      min_def, max_def, Vec3.mk.injEq]
  · norm_num [lerpV, Vec3.add, Vec3.sub, Vec3.smul, darkgray, red, orange,
      min_def, max_def, Vec3.mk.injEq]
  · norm_num [lerpV, Vec3.add, Vec3.sub, Vec3.smul, red, orange, yellow,
      min_def, max_def, Vec3.mk.injEq]

/-- C7: `fractal_brownian_motion v` is the weighted sum of 4 noise octaves
(weights `0.50, 0.25, 0.125, 0.0625`) at the rotated position scaled
cumulatively by `2.32`, `3.03`, `2.61`, divided by `0.9375`, and the result
lies in `[0, 1)`, the output range of `noise`. -/
theorem C7_fbm_octaves (v : Vec3) :
    fractal_brownian_motion v =
      (0.50 * noise (rotate v) + 0.25 * noise (Vec3.smul (rotate v) 2.32) +
        0.125 * noise (Vec3.smul (Vec3.smul (rotate v) 2.32) 3.03) +
        0.0625 * noise (Vec3.smul (Vec3.smul (Vec3.smul (rotate v) 2.32) 3.03) 2.61)) /
        0.9375 ∧
    0 ≤ fractal_brownian_motion v ∧ fractal_brownian_motion v < 1 :=
  ⟨rfl, (fbm_mem v).1, (fbm_mem v).2⟩

/-- Counterexample to C8 as stated: `Vec3f::normalize` takes `&mut self`
and overwrites its operand, so after `a = (3,0,0)` calls `normalize`, the
operand no longer equals `(3,0,0)` — the in-place mutation is observable. -/
theorem C8_normalize_mutates_counterexample :
    (Vec3.normalize ⟨3, 0, 0⟩).1 ≠ (⟨3, 0, 0⟩ : Vec3) := by
  intro h
  have hx := congrArg Vec3.x h
  simp only [Vec3.normalize, Vec3.smul, norm_three] at hx
  norm_num at hx

/-- C8 amended: `normalize(a)` returns `scale(a, 1/magnitude(a))`, but it
also overwrites the operand `a` with that same returned value (`&mut self`
receiver), so the operand does not stay unchanged. -/
theorem C8_normalize_amended (a : Vec3) (_h : Vec3.norm a ≠ 0) :
    (Vec3.normalize a).2 = Vec3.smul a (1 / Vec3.norm a) ∧
    (Vec3.normalize a).1 = (Vec3.normalize a).2 :=
  ⟨rfl, rfl⟩

/-- Witness for the amended C8 at `a = (3,0,0)` (non-zero magnitude). -/
theorem C8_normalize_amended_witness :
    Vec3.norm ⟨3, 0, 0⟩ ≠ 0 ∧
    ((Vec3.normalize ⟨3, 0, 0⟩).2 = Vec3.smul ⟨3, 0, 0⟩ (1 / Vec3.norm ⟨3, 0, 0⟩) ∧
      (Vec3.normalize ⟨3, 0, 0⟩).1 = (Vec3.normalize ⟨3, 0, 0⟩).2) := by
  have h : Vec3.norm ⟨3, 0, 0⟩ ≠ 0 := by rw [norm_three]; norm_num
  exact ⟨h, C8_normalize_amended ⟨3, 0, 0⟩ h⟩

/-- C9: for every (non-negative, as produced by the renderer) framebuffer
channel value, the byte computed by the implementation — gamma encode,
scale by 255, truncate via the integer cast, then clamp — equals the
spec's clamp-then-truncate pipeline. -/
theorem C9_encode_order (c : ℝ) (h : 0 ≤ c) : encodeImpl c = encodeSpec c := by
  have hp : 0 ≤ c ^ ((1 : ℝ) / 2.2) * 255 :=
    mul_nonneg (Real.rpow_nonneg h _) (by norm_num)
  have hmin : 0 ≤ min (c ^ ((1 : ℝ) / 2.2) * 255) 255 := le_min hp (by norm_num)
  have h0 : (0 : ℤ) ≤ ⌊c ^ ((1 : ℝ) / 2.2) * 255⌋ := Int.le_floor.mpr (by exact_mod_cast hp)
  unfold encodeImpl encodeSpec truncToInt
  rw [if_pos hp, max_eq_left hp, if_pos hmin, floor_min_255]
  exact max_eq_left (le_min h0 (by norm_num))

/-- Witness for C9 at channel value `1`. -/
theorem C9_encode_order_witness : (0 : ℝ) ≤ 1 ∧ encodeImpl 1 = encodeSpec 1 :=
  ⟨by norm_num, C9_encode_order 1 (by norm_num)⟩

/-- C10: `lerp` clamps its interpolation parameter: it equals
`v0 + (v1 - v0) * min(max(t, 0), 1)` for every `t` (in both the scalar and
the vector instantiation), it returns `v0` at every non-positive parameter
`-|t|`, and it returns `v1` at every parameter `1 + |t|` at least 1, so
out-of-range parameters never extrapolate past the nearer endpoint. -/
theorem C10_lerp_clamps (v0 v1 t : ℝ) (a b : Vec3) :
    lerp v0 v1 t = v0 + (v1 - v0) * min (max t 0) 1 ∧
    lerp v0 v1 (-|t|) = v0 ∧
    lerp v0 v1 (1 + |t|) = v1 ∧
    lerpV a b t = Vec3.add a (Vec3.smul (Vec3.sub b a) (min (max t 0) 1)) ∧
    lerpV a b (-|t|) = a ∧
    lerpV a b (1 + |t|) = b := by
  obtain ⟨ax, ay, az⟩ := a
  obtain ⟨bx, bv, bz⟩ := b
  refine ⟨?_, ?_, ?_, ?_, ?_, ?_⟩
  · unfold lerp; rw [clamp_comm]
  · unfold lerp; rw [clamp_neg_abs]; ring
  · unfold lerp; rw [clamp_one_add_abs]; ring
  · unfold lerpV; rw [clamp_comm]
  · unfold lerpV; rw [clamp_neg_abs]
    simp only [Vec3.add, Vec3.sub, Vec3.smul, Vec3.mk.injEq]
    refine ⟨by ring, by ring, by ring⟩
  · unfold lerpV; rw [clamp_one_add_abs]
    simp only [Vec3.add, Vec3.sub, Vec3.smul, Vec3.mk.injEq]
    refine ⟨by ring, by ring, by ring⟩

/-- C5: the framebuffer value of every pixel is, when the pixel's camera
ray hits, `palette((noise_level - 0.2) * 2.0)` scaled by the light
intensity `max(dot(light_dir, normal(hit)), 0.4)` with
`noise_level = (SPHERE_RADIUS - |hit|) / NOISE_AMPLITUDE` and
`light_dir = normalize((10,10,10) - hit)` (see `shadeHitSpec`), and, when
the ray misses, exactly the fixed background colour
`(0.2^2.2, 0.7^2.2, 0.8^2.2)` (see `backgroundSpec`). -/
theorem C5_pixel_shading (i j : ℕ) :
    renderPixel i j =
      (sphere_trace ⟨0, 0, 3⟩ (rayDir i j)).elim backgroundSpec shadeHitSpec := by
  unfold renderPixel pixelColor
  cases htr : sphere_trace ⟨0, 0, 3⟩ (rayDir i j) with
  | none => rfl
  | some hit =>
      show Vec3.smul (palette_fire
          ((-0.2 + (SPHERE_RADIUS - Vec3.norm hit) / NOISE_AMPLITUDE) * 2.0))
          (max (Vec3.dot (Vec3.normalize (Vec3.sub ⟨10, 10, 10⟩ hit)).2
            (distance_field_normal hit)) 0.4) = _
      rw [show (-0.2 + (SPHERE_RADIUS - Vec3.norm hit) / NOISE_AMPLITUDE) * 2.0 =
          ((SPHERE_RADIUS - Vec3.norm hit) / NOISE_AMPLITUDE - 0.2) * 2.0 by ring]
      rfl

end

end Kaboom
